import Mathlib

/-
Shallow embedding of the release-selection and caching logic of
src/scripts/opendrop-release.js (the OpenDropRelease module).

Strings are handled as lists of characters (`String.data`); nullable
JavaScript values are modelled with `Option`; timestamps are natural
numbers of milliseconds since the epoch (`new Date(s).getTime()` of a
present timestamp string); storage and transport failures are modelled
explicitly so that the catch-all error handling of the source becomes
visible in the types.
-/

namespace OpenDrop

/-- Cache time-to-live from CONFIG.cacheTTL: 6 hours in milliseconds. -/
def cacheTTL : Nat := 6 * 60 * 60 * 1000

/-- Parsed semantic version, the record returned by parseSemver. -/
structure Semver where
  major : Nat
  minor : Nat
  patch : Nat
deriving DecidableEq, Repr

/-- Character constants used by the source's regular expressions. -/
def dotChar : Char := ('.')

def vLower : Char := ('v')

def vUpper : Char := ('V')

/-- Whitespace trimming on both ends, the effect of String.trim in JS
(restricted to ASCII whitespace, which is all the claims exercise). -/
def trimChars (cs : List Char) : List Char :=
  ((cs.dropWhile Char.isWhitespace).reverse.dropWhile Char.isWhitespace).reverse

/-- Removal of one optional leading letter v or V: replace of the
case-insensitive anchored single-character pattern by the empty string. -/
def stripLeadingV : List Char → List Char
  | [] => []
  | c :: rest => if c = vLower ∨ c = vUpper then rest else c :: rest

/-- Numeric value of a decimal digit character. -/
def digitVal (c : Char) : Nat := c.toNat - 48

/-- Decimal number denoted by a list of digit characters, the value
Number gives a digit-only capture group. -/
def natOfDigits (ds : List Char) : Nat :=
  ds.foldl (fun acc c => acc * 10 + digitVal c) 0

/-- Attempt of the pattern digits dot digits dot digits at the current
position.  Each digit group is maximal-munch, which agrees with the
greedy regex groups because after each group a literal dot is required,
so no backtracked shorter group can ever succeed. -/
def matchTripleAt (cs : List Char) : Option Semver :=
  let d1 := cs.takeWhile Char.isDigit
  let r1 := cs.dropWhile Char.isDigit
  if d1.isEmpty then none
  else
    match r1 with
    | [] => none
    | c1 :: r2 =>
      if c1 = dotChar then
        let d2 := r2.takeWhile Char.isDigit
        let r3 := r2.dropWhile Char.isDigit
        if d2.isEmpty then none
        else
          match r3 with
          | [] => none
          | c2 :: r4 =>
            if c2 = dotChar then
              let d3 := r4.takeWhile Char.isDigit
              if d3.isEmpty then none
              else some ⟨natOfDigits d1, natOfDigits d2, natOfDigits d3⟩
            else none
      else none

/-- Leftmost match of the triple pattern anywhere in the string, the
behaviour of String.match with an unanchored regex. -/
def findTriple : List Char → Option Semver
  | [] => none
  | c :: rest =>
    match matchTripleAt (c :: rest) with
    | some v => some v
    | none => findTriple rest

/-- parseSemver from the source: a falsy tag (absent or empty) gives
null, otherwise trim, strip one leading v/V, and search for the first
digits.digits.digits substring. -/
def parseSemver : Option String → Option Semver
  | none => none
  | some tag =>
    if tag = ("") then none
    else findTriple (stripLeadingV (trimChars tag.data))

/-- A decomposition of a character list as an arbitrary head followed by
three non-empty digit groups separated by dots: exactly the positions at
which the version pattern digits.digits.digits can match. -/
def TripleDecomp (cs pre d1 d2 d3 post : List Char) : Prop :=
  cs = pre ++ (d1 ++ dotChar :: (d2 ++ dotChar :: (d3 ++ post))) ∧
  d1 ≠ [] ∧ d2 ≠ [] ∧ d3 ≠ [] ∧
  (∀ c ∈ d1, c.isDigit = true) ∧ (∀ c ∈ d2, c.isDigit = true) ∧
  (∀ c ∈ d3, c.isDigit = true)

/-- compareSemver from the source: lexicographic difference on
(major, minor, patch), returned as a signed number. -/
def compareSemver (a b : Semver) : Int :=
  if a.major ≠ b.major then (a.major : Int) - (b.major : Int)
  else if a.minor ≠ b.minor then (a.minor : Int) - (b.minor : Int)
  else (a.patch : Int) - (b.patch : Int)

/-- Release record, the fields of the upstream release object that the
selection logic reads.  tag_name may be absent, published_at is the
parsed timestamp in milliseconds or absent; presentation-only fields
(html_url, assets) play no part in pickBestRelease and are omitted. -/
structure Release where
  tag_name : Option String
  draft : Bool
  prerelease : Bool
  published_at : Option Nat
deriving DecidableEq, Repr

/-- Timestamp used in the tie-break: new Date(published_at || 0)
.getTime(), an absent timestamp read as the epoch. -/
def publishedTime (r : Release) : Nat := r.published_at.getD 0

/-- The nonDrafts local of pickBestRelease: entries with the draft flag
set are removed. -/
def nonDraftsOf (releases : List Release) : List Release :=
  releases.filter (fun r => !r.draft)

/-- The stable local of pickBestRelease: non-draft entries that are not
prereleases. -/
def stableOf (releases : List Release) : List Release :=
  (nonDraftsOf releases).filter (fun r => !r.prerelease)

/-- The candidates local of pickBestRelease: the stable pool when it is
non-empty, otherwise all non-draft entries. -/
def candidatesOf (releases : List Release) : List Release :=
  if (stableOf releases).length > 0 then stableOf releases
  else nonDraftsOf releases

/-- The running best of pickBestRelease's loop: a release together with
its parsed version. -/
structure BestEntry where
  release : Release
  semver : Semver
deriving DecidableEq, Repr

/-- The for-loop of pickBestRelease: candidates without a parseable
version are skipped; a candidate replaces the best when its version
compares greater, or on an exact version tie when its publish time is
strictly later. -/
def pickLoop : List Release → Option BestEntry → Option BestEntry
  | [], best => best
  | r :: rest, best =>
    match parseSemver r.tag_name with
    | none => pickLoop rest best
    | some sv =>
      match best with
      | none => pickLoop rest (some ⟨r, sv⟩)
      | some b =>
        if compareSemver sv b.semver > 0 then pickLoop rest (some ⟨r, sv⟩)
        else if compareSemver sv b.semver = 0 then
          if publishedTime r > publishedTime b.release then
            pickLoop rest (some ⟨r, sv⟩)
          else pickLoop rest (some b)
        else pickLoop rest (some b)

/-- pickBestRelease from the source: empty input gives null; otherwise
drafts are dropped, stability preferred, the loop ranks parseable
candidates, and with no parseable version the first candidate is the
fallback. -/
def pickBestRelease (releases : List Release) : Option Release :=
  if releases.isEmpty then none
  else
    match pickLoop (candidatesOf releases) none with
    | some b => some b.release
    | none => (candidatesOf releases).head?

/-- Release asset: the selection logic reads only the file name. -/
structure Asset where
  name : String
deriving DecidableEq, Repr

/-- ASCII lowercasing of a character list, the effect of
String.toLowerCase on the names the claims exercise. -/
def toLowerChars (cs : List Char) : List Char := cs.map Char.toLower

/-- Substring test on character lists: the pattern occurs contiguously
somewhere in the text. -/
def hasSub (pat : List Char) : List Char → Bool
  | [] => pat.isEmpty
  | c :: rest => List.isPrefixOf pat (c :: rest) || hasSub pat rest

/-- Case-insensitive substring test, the effect of testing a
case-insensitive literal regex against a name. -/
def testCI (pat : String) (s : String) : Bool :=
  hasSub (toLowerChars pat.data) (toLowerChars s.data)

/-- The isExe local of pickWindowsAsset: the lowercased name ends with
the executable extension. -/
def isExe (a : Asset) : Bool :=
  List.isSuffixOf ((".exe").data) (toLowerChars a.name.data)

/-- Test of the product-identifier regex (opendrop, case-insensitive)
against an asset name. -/
def productMatch (a : Asset) : Bool := testCI ("opendrop") a.name

/-- Test of the installer-role regex (server, setup, installer or
windows, case-insensitive) against an asset name. -/
def roleMatch (a : Asset) : Bool :=
  testCI ("server") a.name || testCI ("setup") a.name ||
    testCI ("installer") a.name || testCI ("windows") a.name

/-- pickWindowsAsset from the source: among assets whose name ends in
.exe, prefer a product-plus-role match, then any product match, then the
first executable; absent when no asset name ends in .exe. -/
def pickWindowsAsset (assets : List Asset) : Option Asset :=
  if assets.isEmpty then none
  else
    let exes := assets.filter isExe
    if exes.isEmpty then none
    else
      match exes.find? (fun a => productMatch a && roleMatch a) with
      | some a => some a
      | none =>
        match exes.find? productMatch with
        | some a => some a
        | none => exes.head?

/-- Decoded form of the JSON string stored under the cache key:
either a payload JSON.parse rejects or that lacks object shape
(malformed), or an object with a numeric ts field (absent read as 0)
and a release field that is either a record or null/absent.  For the
JSON-representable release records of the data model, JSON.stringify
followed by JSON.parse is the identity, so a stored entry decodes to
exactly what was written. -/
inductive StoredJson where
  | malformed
  | entry (ts : Nat) (release : Option Release)
deriving DecidableEq, Repr

/-- State of the browser-local store as the cache sees it: the contents
of the single cache key, plus flags for the failure modes the source
catches (getItem/JSON.parse throwing, setItem throwing on quota or
unavailable storage). -/
structure Storage where
  contents : Option StoredJson
  getFails : Bool
  setFails : Bool
deriving DecidableEq, Repr

/-- getCachedRelease from the source: any storage or decode throw is
caught and gives null; a decoded entry is returned only when its ts
field is truthy, its age is below the TTL, and its release field is
truthy. -/
def getCachedRelease (st : Storage) (now : Nat) : Option Release :=
  if st.getFails then none
  else
    match st.contents with
    | none => none
    | some StoredJson.malformed => none
    | some (StoredJson.entry ts rel) =>
      if ts != 0 && decide (now - ts < cacheTTL) && rel.isSome then rel
      else none

/-- cacheRelease from the source: the entry is overwritten with the
current instant and the given release; a storage throw is caught and
ignored, leaving the store as it was. -/
def cacheRelease (st : Storage) (now : Nat) (release : Release) : Storage :=
  if st.setFails then st
  else { st with contents := some (StoredJson.entry now (some release)) }

/-- Outcome of the network transport in fetchLatestRelease: the fetch
promise or the body decoding rejects, the response carries a non-success
HTTP status, or a release list is delivered. -/
inductive FetchResult where
  | networkError
  | httpError (status : Nat)
  | ok (releases : List Release)
deriving DecidableEq, Repr

/-- Observable outcome of one fetchLatestRelease run: the releases
handed to updateReleaseUI, in order, and the final storage state.
Warnings to the console are not modelled. -/
structure OrchestratorResult where
  uiUpdates : List Release
  storage : Storage
deriving DecidableEq, Repr

/-- fetchLatestRelease from the source: a fresh cached release goes
straight to the UI; otherwise the transport outcome is examined, and
only a successful fetch with a selectable best release updates the UI
and writes the cache.  Every failure path returns normally with the
storage untouched. -/
def fetchLatestRelease (st : Storage) (now : Nat)
    (transport : FetchResult) : OrchestratorResult :=
  match getCachedRelease st now with
  | some cached => ⟨[cached], st⟩
  | none =>
    match transport with
    | FetchResult.networkError => ⟨[], st⟩
    | FetchResult.httpError _ => ⟨[], st⟩
    | FetchResult.ok releases =>
      match pickBestRelease releases with
      | none => ⟨[], st⟩
      | some best => ⟨[best], cacheRelease st now best⟩

/-- Comparing a version with itself gives zero. -/
theorem compareSemver_self (v : Semver) : compareSemver v v = 0 := by
  simp [compareSemver]

/-- Membership in the non-draft pool. -/
theorem mem_nonDraftsOf {releases : List Release} {r : Release}
    (h : r ∈ nonDraftsOf releases) : r ∈ releases ∧ r.draft = false := by
  have hm := List.mem_filter.mp h
  exact ⟨hm.1, by simpa using hm.2⟩

/-- Membership in the stable pool. -/
theorem mem_stableOf {releases : List Release} {r : Release}
    (h : r ∈ stableOf releases) :
    r ∈ releases ∧ r.draft = false ∧ r.prerelease = false := by
  have hm := List.mem_filter.mp h
  have hn := mem_nonDraftsOf hm.1
  exact ⟨hn.1, hn.2, by simpa using hm.2⟩

/-- Membership in the candidate pool: every candidate is a non-draft
element of the input. -/
theorem mem_candidatesOf {releases : List Release} {r : Release}
    (h : r ∈ candidatesOf releases) : r ∈ releases ∧ r.draft = false := by
  unfold candidatesOf at h
  split at h
  · exact (mem_stableOf h).imp id And.left
  · exact mem_nonDraftsOf h

/-- The loop only ever produces the accumulator or an element of the
remaining list. -/
theorem pickLoop_mem (cs : List Release) :
    ∀ (b : Option BestEntry) (be : BestEntry),
      pickLoop cs b = some be → be.release ∈ cs ∨ b = some be := by
  induction cs with
  | nil =>
    intro b be h
    right
    simpa [pickLoop] using h
  | cons r rest ih =>
    intro b be h
    simp only [pickLoop] at h
    split at h
    · rcases ih b be h with hm | hm
      · exact Or.inl (List.mem_cons_of_mem r hm)
      · exact Or.inr hm
    · rename_i sv _
      split at h
      · rcases ih (some ⟨r, sv⟩) be h with hm | hm
        · exact Or.inl (List.mem_cons_of_mem r hm)
        · have : be.release = r := by cases hm; rfl
          exact Or.inl (this ▸ List.mem_cons_self r rest)
      · rename_i bb
        split at h
        · rcases ih (some ⟨r, sv⟩) be h with hm | hm
          · exact Or.inl (List.mem_cons_of_mem r hm)
          · have : be.release = r := by cases hm; rfl
            exact Or.inl (this ▸ List.mem_cons_self r rest)
        · split at h
          · split at h
            · rcases ih (some ⟨r, sv⟩) be h with hm | hm
              · exact Or.inl (List.mem_cons_of_mem r hm)
              · have : be.release = r := by cases hm; rfl
                exact Or.inl (this ▸ List.mem_cons_self r rest)
            · rcases ih (some bb) be h with hm | hm
              · exact Or.inl (List.mem_cons_of_mem r hm)
              · exact Or.inr hm
          · rcases ih (some bb) be h with hm | hm
            · exact Or.inl (List.mem_cons_of_mem r hm)
            · exact Or.inr hm

/-- When no remaining candidate has a parseable version the loop keeps
its accumulator. -/
theorem pickLoop_skip (cs : List Release) :
    ∀ b, (∀ r ∈ cs, parseSemver r.tag_name = none) → pickLoop cs b = b := by
  induction cs with
  | nil => intro b _; rfl
  | cons r rest ih =>
    intro b h
    have hr : parseSemver r.tag_name = none := h r (List.mem_cons_self r rest)
    simp only [pickLoop, hr]
    exact ih b (fun x hx => h x (List.mem_cons_of_mem r hx))

/-- Whatever pickBestRelease returns lies in the candidate pool. -/
theorem pickBest_mem {releases : List Release} {r : Release}
    (h : pickBestRelease releases = some r) : r ∈ candidatesOf releases := by
  unfold pickBestRelease at h
  split at h
  · exact absurd h (by simp)
  · split at h
    · rename_i b hp
      rcases pickLoop_mem _ _ _ hp with hm | hm
      · have : b.release = r := by injection h
        exact this ▸ hm
      · exact absurd hm (by simp)
    · exact List.mem_of_mem_head? (by simp [h])

/-- A non-empty candidate pool always yields a result, and the result is
in the pool. -/
theorem pickBest_exists {releases : List Release}
    (h : candidatesOf releases ≠ []) :
    ∃ r, pickBestRelease releases = some r ∧ r ∈ candidatesOf releases := by
  have hrel : releases.isEmpty = false := by
    cases releases with
    | nil => exact absurd rfl h
    | cons a t => rfl
  refine ?_
  unfold pickBestRelease
  rw [hrel]
  simp only [Bool.false_eq_true, if_false]
  cases hp : pickLoop (candidatesOf releases) none with
  | some b =>
    refine ⟨b.release, rfl, ?_⟩
    rcases pickLoop_mem _ _ _ hp with hm | hm
    · exact hm
    · exact absurd hm (by simp)
  | none =>
    cases hc : candidatesOf releases with
    | nil => exact absurd hc h
    | cons c t => exact ⟨c, by simp, List.mem_cons_self c t⟩

/-- C1: pickBestRelease never returns a release with the draft flag set;
any record it returns is a non-draft element of the input list. -/
theorem pickBestRelease_never_returns_draft
    (releases : List Release) (r : Release)
    (h : pickBestRelease releases = some r) :
    r.draft = false ∧ r ∈ releases := by
  have hm := mem_candidatesOf (pickBest_mem h)
  exact ⟨hm.2, hm.1⟩

/-- Witness for C1 at a two-element list holding one draft. -/
theorem pickBestRelease_never_returns_draft_witness :
    (⟨some ("v1.0.0"), false, false, none⟩ : Release).draft = false ∧
      (⟨some ("v1.0.0"), false, false, none⟩ : Release) ∈
        [(⟨some ("v2.0.0"), true, false, none⟩ : Release),
          ⟨some ("v1.0.0"), false, false, none⟩] :=
  pickBestRelease_never_returns_draft _ _ (by decide)

/-- C2: when some non-draft stable release exists the winner is drawn
from the stable pool, so pickBestRelease returns a non-draft,
non-prerelease record. -/
theorem pickBestRelease_prefers_stable (releases : List Release)
    (h : ∃ r ∈ releases, r.draft = false ∧ r.prerelease = false) :
    ∃ r, pickBestRelease releases = some r ∧ r.draft = false ∧
      r.prerelease = false := by
  obtain ⟨w, hw, hwd, hwp⟩ := h
  have hwstable : w ∈ stableOf releases := by
    unfold stableOf nonDraftsOf
    exact List.mem_filter.mpr
      ⟨List.mem_filter.mpr ⟨hw, by simp [hwd]⟩, by simp [hwp]⟩
  have hsne : stableOf releases ≠ [] := fun he => by simp [he] at hwstable
  have hcand : candidatesOf releases = stableOf releases := by
    unfold candidatesOf
    rw [if_pos]
    exact List.length_pos.mpr hsne
  have hcne : candidatesOf releases ≠ [] := by rw [hcand]; exact hsne
  obtain ⟨r, hr, hrm⟩ := pickBest_exists hcne
  rw [hcand] at hrm
  have hs := mem_stableOf hrm
  exact ⟨r, hr, hs.2.1, hs.2.2⟩

/-- Witness for C2: a lower-versioned stable release beats a
higher-versioned prerelease. -/
theorem pickBestRelease_prefers_stable_witness :
    (∃ r ∈ [(⟨some ("v1.0.0"), false, false, none⟩ : Release),
        ⟨some ("v1.1.0"), false, true, none⟩],
      r.draft = false ∧ r.prerelease = false) ∧
    (∃ r, pickBestRelease [(⟨some ("v1.0.0"), false, false, none⟩ : Release),
        ⟨some ("v1.1.0"), false, true, none⟩] = some r ∧
      r.draft = false ∧ r.prerelease = false) ∧
    pickBestRelease [(⟨some ("v1.0.0"), false, false, none⟩ : Release),
        ⟨some ("v1.1.0"), false, true, none⟩] =
      some ⟨some ("v1.0.0"), false, false, none⟩ :=
  ⟨by decide, pickBestRelease_prefers_stable _ (by decide), by decide⟩

/-- C4: on an exact version tie between two candidates the one with the
strictly later publish time wins, an absent timestamp reading as the
epoch, and on equal times the earlier-scanned candidate is kept. -/
theorem pickBestRelease_tiebreak_published (r1 r2 : Release) (v : Semver)
    (h1 : r1.draft = false) (h2 : r2.draft = false)
    (p1 : r1.prerelease = false) (p2 : r2.prerelease = false)
    (hv1 : parseSemver r1.tag_name = some v)
    (hv2 : parseSemver r2.tag_name = some v) :
    pickBestRelease [r1, r2] =
      some (if publishedTime r2 > publishedTime r1 then r2 else r1) := by
  have hcand : candidatesOf [r1, r2] = [r1, r2] := by
    simp [candidatesOf, stableOf, nonDraftsOf, List.filter, h1, h2, p1, p2]
  by_cases ht : publishedTime r2 > publishedTime r1
  · simp [pickBestRelease, hcand, pickLoop, hv1, hv2, compareSemver_self, ht]
  · simp [pickBestRelease, hcand, pickLoop, hv1, hv2, compareSemver_self, ht]

/-- Witness for C4: of two equal-version candidates where only the
second has a timestamp, the second wins. -/
theorem pickBestRelease_tiebreak_published_witness :
    pickBestRelease [(⟨some ("v1.0.0"), false, false, none⟩ : Release),
        ⟨some ("v1.0.0"), false, false, some 1000⟩] =
      some (if publishedTime (⟨some ("v1.0.0"), false, false, some 1000⟩ : Release) >
            publishedTime (⟨some ("v1.0.0"), false, false, none⟩ : Release)
        then (⟨some ("v1.0.0"), false, false, some 1000⟩ : Release)
        else ⟨some ("v1.0.0"), false, false, none⟩) :=
  pickBestRelease_tiebreak_published _ _ ⟨1, 0, 0⟩ rfl rfl rfl rfl
    (by decide) (by decide)

/-- C8: when no candidate in the pool has a parseable version the first
pool element is returned in upstream order, and the result is absent
exactly when the candidate pool is empty. -/
theorem pickBestRelease_unparseable_fallback (releases : List Release) :
    ((∀ r ∈ candidatesOf releases, parseSemver r.tag_name = none) →
      pickBestRelease releases = (candidatesOf releases).head?) ∧
    (pickBestRelease releases = none ↔ candidatesOf releases = []) := by
  constructor
  · intro h
    cases releases with
    | nil => rfl
    | cons a t =>
      unfold pickBestRelease
      rw [pickLoop_skip _ _ h]
      simp
  · constructor
    · intro h
      by_contra hne
      obtain ⟨r, hr, _⟩ := pickBest_exists hne
      rw [h] at hr
      cases hr
    · intro h
      unfold pickBestRelease
      rw [h]
      simp [pickLoop]

/-- Witness for C8 at a list whose tags are all unparseable. -/
theorem pickBestRelease_unparseable_fallback_witness :
    (∀ r ∈ candidatesOf [(⟨some ("alpha"), false, false, none⟩ : Release),
        ⟨none, false, false, none⟩], parseSemver r.tag_name = none) ∧
    pickBestRelease [(⟨some ("alpha"), false, false, none⟩ : Release),
        ⟨none, false, false, none⟩] =
      (candidatesOf [(⟨some ("alpha"), false, false, none⟩ : Release),
        ⟨none, false, false, none⟩]).head? :=
  ⟨by decide, (pickBestRelease_unparseable_fallback _).1 (by decide)⟩

/-- The two emptiness guards of pickWindowsAsset collapse into the
tiered search itself. -/
theorem pickWindowsAsset_eq (assets : List Asset) :
    pickWindowsAsset assets =
      (match (assets.filter isExe).find? (fun a => productMatch a && roleMatch a) with
        | some a => some a
        | none =>
          match (assets.filter isExe).find? productMatch with
          | some a => some a
          | none => (assets.filter isExe).head?) := by
  unfold pickWindowsAsset
  cases assets with
  | nil => rfl
  | cons x xs =>
    simp only [List.isEmpty_cons, Bool.false_eq_true, if_false]
    split
    · rename_i hexes
      rw [List.isEmpty_iff.mp hexes]
      rfl
    · rfl

/-- C5: pickWindowsAsset returns absent exactly when no asset name ends
in .exe; otherwise it returns an executable asset of the input, tiered:
a product-plus-role match first, then any product match, then the first
executable in input order. -/
theorem pickWindowsAsset_contract (assets : List Asset) :
    (pickWindowsAsset assets = none ↔ assets.filter isExe = []) ∧
    (∀ a, pickWindowsAsset assets = some a → isExe a = true ∧ a ∈ assets) ∧
    ((∃ a ∈ assets, isExe a = true ∧ productMatch a = true ∧ roleMatch a = true) →
      ∃ a, pickWindowsAsset assets = some a ∧ productMatch a = true ∧
        roleMatch a = true) ∧
    ((∃ a ∈ assets, isExe a = true ∧ productMatch a = true) →
      ∃ a, pickWindowsAsset assets = some a ∧ productMatch a = true) ∧
    ((∀ a ∈ assets, isExe a = true → productMatch a = false) →
      pickWindowsAsset assets = (assets.filter isExe).head?) := by
  rw [pickWindowsAsset_eq]
  refine ⟨?_, ?_, ?_, ?_, ?_⟩
  · cases hL : assets.filter isExe with
    | nil => simp [hL]
    | cons c t =>
      constructor
      · intro hcontra
        split at hcontra
        · cases hcontra
        · split at hcontra
          · cases hcontra
          · cases hcontra
      · intro hcontra
        cases hcontra
  · intro a ha
    have hmem : a ∈ assets.filter isExe := by
      split at ha
      · rename_i b hb
        cases ha
        exact List.mem_of_find?_eq_some hb
      · split at ha
        · rename_i b hb
          cases ha
          exact List.mem_of_find?_eq_some hb
        · cases hL : assets.filter isExe with
          | nil => rw [hL] at ha; cases ha
          | cons c t =>
            rw [hL] at ha
            cases ha
            exact List.mem_cons_self _ _
    have := List.mem_filter.mp hmem
    exact ⟨this.2, this.1⟩
  · rintro ⟨w, hw, hwe, hwp, hwr⟩
    have hwmem : w ∈ assets.filter isExe := List.mem_filter.mpr ⟨hw, hwe⟩
    cases hf : (assets.filter isExe).find? (fun a => productMatch a && roleMatch a) with
    | none =>
      exact absurd (List.find?_eq_none.mp hf w hwmem) (by simp [hwp, hwr])
    | some b =>
      have hb := List.find?_some hf
      rw [Bool.and_eq_true] at hb
      exact ⟨b, rfl, hb.1, hb.2⟩
  · rintro ⟨w, hw, hwe, hwp⟩
    have hwmem : w ∈ assets.filter isExe := List.mem_filter.mpr ⟨hw, hwe⟩
    cases hf : (assets.filter isExe).find? (fun a => productMatch a && roleMatch a) with
    | some b =>
      have hb := List.find?_some hf
      rw [Bool.and_eq_true] at hb
      exact ⟨b, rfl, hb.1⟩
    | none =>
      cases hg : (assets.filter isExe).find? productMatch with
      | none => exact absurd (List.find?_eq_none.mp hg w hwmem) (by simp [hwp])
      | some b => exact ⟨b, rfl, List.find?_some hg⟩
  · intro h
    have hf : (assets.filter isExe).find? (fun a => productMatch a && roleMatch a) = none := by
      rw [List.find?_eq_none]
      intro x hx
      have hxf := List.mem_filter.mp hx
      simp [h x hxf.1 hxf.2]
    have hg : (assets.filter isExe).find? productMatch = none := by
      rw [List.find?_eq_none]
      intro x hx
      have hxf := List.mem_filter.mp hx
      simp [h x hxf.1 hxf.2]
    rw [hf, hg]

/-- Witness for C5 at the spec's example asset list. -/
theorem pickWindowsAsset_contract_witness :
    (∃ a ∈ [(⟨("readme.txt")⟩ : Asset), ⟨("opendrop-setup.exe")⟩, ⟨("tool.exe")⟩],
      isExe a = true ∧ productMatch a = true ∧ roleMatch a = true) ∧
    (∃ a, pickWindowsAsset [(⟨("readme.txt")⟩ : Asset), ⟨("opendrop-setup.exe")⟩,
        ⟨("tool.exe")⟩] = some a ∧ productMatch a = true ∧ roleMatch a = true) ∧
    pickWindowsAsset [(⟨("readme.txt")⟩ : Asset), ⟨("opendrop-setup.exe")⟩,
        ⟨("tool.exe")⟩] = some ⟨("opendrop-setup.exe")⟩ :=
  ⟨by decide,
    (pickWindowsAsset_contract _).2.2.1 (by decide),
    by decide⟩

/-- The dot separator is not a digit. -/
theorem dotChar_not_digit : dotChar.isDigit = false := by decide

/-- A successful match at a position decomposes the string into three
non-empty digit groups separated by dots, the groups denote the three
version components, and the third group is greedy: the remainder does
not begin with a digit. -/
theorem matchTripleAt_sound {cs : List Char} {v : Semver}
    (h : matchTripleAt cs = some v) :
    ∃ d1 d2 d3 post, TripleDecomp cs [] d1 d2 d3 post ∧
      (∀ c, post.head? = some c → c.isDigit = false) ∧
      natOfDigits d1 = v.major ∧ natOfDigits d2 = v.minor ∧
      natOfDigits d3 = v.patch := by
  simp only [matchTripleAt] at h
  split at h
  · cases h
  · rename_i hne1
    split at h
    · cases h
    · rename_i c1 r2 heq1
      split at h
      · rename_i hdot1
        split at h
        · cases h
        · rename_i hne2
          split at h
          · cases h
          · rename_i c2 r4 heq2
            split at h
            · rename_i hdot2
              split at h
              · cases h
              · rename_i hne3
                cases h
                refine ⟨cs.takeWhile Char.isDigit, r2.takeWhile Char.isDigit,
                  r4.takeWhile Char.isDigit, r4.dropWhile Char.isDigit,
                  ⟨?_, ?_, ?_, ?_,
                    fun c hc => List.mem_takeWhile_imp hc,
                    fun c hc => List.mem_takeWhile_imp hc,
                    fun c hc => List.mem_takeWhile_imp hc⟩,
                  ?_, rfl, rfl, rfl⟩
                · rw [List.nil_append]
                  subst hdot1
                  subst hdot2
                  rw [List.takeWhile_append_dropWhile Char.isDigit r4, ← heq2,
                    List.takeWhile_append_dropWhile Char.isDigit r2, ← heq1,
                    List.takeWhile_append_dropWhile Char.isDigit cs]
                · intro he
                  rw [he] at hne1
                  exact hne1 rfl
                · intro he
                  rw [he] at hne2
                  exact hne2 rfl
                · intro he
                  rw [he] at hne3
                  exact hne3 rfl
                · intro c hc
                  have hd := List.head?_dropWhile_not Char.isDigit r4
                  rw [hc] at hd
                  exact hd
            · cases h
      · cases h

/-- Splitting takeWhile and dropWhile at the dot that follows a digit
group. -/
theorem takeWhile_digits_dot (d r : List Char)
    (hd : ∀ c ∈ d, c.isDigit = true) :
    (d ++ dotChar :: r).takeWhile Char.isDigit = d ∧
    (d ++ dotChar :: r).dropWhile Char.isDigit = dotChar :: r := by
  induction d with
  | nil =>
    constructor
    · simp [List.takeWhile_cons, dotChar_not_digit]
    · simp [List.dropWhile_cons, dotChar_not_digit]
  | cons a as ih =>
    have ha : a.isDigit = true := hd a (List.mem_cons_self _ _)
    have ihs := ih (fun c hc => hd c (List.mem_cons_of_mem _ hc))
    constructor
    · simp [List.takeWhile_cons, ha, ihs.1]
    · simp [List.dropWhile_cons, ha, ihs.2]

/-- Wherever the triple pattern can be decomposed at the start of the
string, the matcher succeeds there. -/
theorem matchTripleAt_complete {cs d1 d2 d3 post : List Char}
    (hcs : cs = d1 ++ dotChar :: (d2 ++ dotChar :: (d3 ++ post)))
    (h1 : d1 ≠ []) (h2 : d2 ≠ []) (h3 : d3 ≠ [])
    (g1 : ∀ c ∈ d1, c.isDigit = true) (g2 : ∀ c ∈ d2, c.isDigit = true)
    (g3 : ∀ c ∈ d3, c.isDigit = true) :
    ∃ v, matchTripleAt cs = some v := by
  subst hcs
  obtain ⟨c3, t3, rfl⟩ := List.exists_cons_of_ne_nil h3
  have hc3 : c3.isDigit = true := g3 c3 (List.mem_cons_self _ _)
  have t1 := takeWhile_digits_dot d1 (d2 ++ dotChar :: (c3 :: t3 ++ post)) g1
  have t2 := takeWhile_digits_dot d2 (c3 :: t3 ++ post) g2
  have e1 : d1.isEmpty = false := List.isEmpty_eq_false.mpr h1
  have e2 : d2.isEmpty = false := List.isEmpty_eq_false.mpr h2
  rw [← Option.isSome_iff_exists]
  rw [List.cons_append] at t1 t2
  simp only [matchTripleAt, List.cons_append, t1.1, t1.2, t2.1, t2.2, e1, e2,
    Bool.false_eq_true, if_false, eq_self_iff_true, if_true,
    List.takeWhile_cons, hc3, List.isEmpty_cons, Option.isSome_some]

/-- The unanchored search returns the leftmost match: the string splits
as an arbitrary head followed by the matched triple, the groups denote
the returned components, the third group is greedy, and every other
triple decomposition of the string starts at the same position or
later. -/
theorem findTriple_first {cs : List Char} {v : Semver}
    (h : findTriple cs = some v) :
    ∃ pre d1 d2 d3 post, TripleDecomp cs pre d1 d2 d3 post ∧
      (∀ c, post.head? = some c → c.isDigit = false) ∧
      natOfDigits d1 = v.major ∧ natOfDigits d2 = v.minor ∧
      natOfDigits d3 = v.patch ∧
      (∀ pre' d1' d2' d3' post',
        TripleDecomp cs pre' d1' d2' d3' post' →
        pre.length ≤ pre'.length) := by
  induction cs with
  | nil => cases h
  | cons c rest ih =>
    simp only [findTriple] at h
    cases hm : matchTripleAt (c :: rest) with
    | some w =>
      rw [hm] at h
      cases h
      obtain ⟨d1, d2, d3, post, htd, hpost, n1, n2, n3⟩ :=
        matchTripleAt_sound hm
      exact ⟨[], d1, d2, d3, post, htd, hpost, n1, n2, n3,
        fun pre' d1' d2' d3' post' _ => Nat.zero_le _⟩
    | none =>
      rw [hm] at h
      obtain ⟨pre, d1, d2, d3, post, htd, hpost, n1, n2, n3, hmin⟩ := ih h
      obtain ⟨hcs, h1, h2, h3, g1, g2, g3⟩ := htd
      refine ⟨c :: pre, d1, d2, d3, post,
        ⟨by simp [hcs], h1, h2, h3, g1, g2, g3⟩, hpost, n1, n2, n3, ?_⟩
      intro pre' d1' d2' d3' post' htd'
      obtain ⟨hcs', h1', h2', h3', g1', g2', g3'⟩ := htd'
      cases pre' with
      | nil =>
        rw [List.nil_append] at hcs'
        obtain ⟨w', hw'⟩ :=
          matchTripleAt_complete hcs' h1' h2' h3' g1' g2' g3'
        rw [hm] at hw'
        cases hw'
      | cons c0 pre0 =>
        rw [List.cons_append] at hcs'
        injection hcs' with hc0 hrest
        have hle : pre.length ≤ pre0.length :=
          hmin pre0 d1' d2' d3' post' ⟨hrest, h1', h2', h3', g1', g2', g3'⟩
        simpa using Nat.succ_le_succ hle

/-- C3: parseSemver is total, gives absent on absent and empty input and
on the unparseable examples, gives the expected versions on the
parseable examples (including a tag holding two triples, where the first
one wins), and every successful parse comes from the leftmost
digits.digits.digits substring of the trimmed, v-stripped input: the
groups denote the returned components, the third group is greedy, and no
triple decomposition starts earlier. -/
theorem parseSemver_contract :
    parseSemver none = none ∧
    parseSemver (some ("")) = none ∧
    parseSemver (some ("v1.2.3")) = some ⟨1, 2, 3⟩ ∧
    parseSemver (some ("1.2.3")) = some ⟨1, 2, 3⟩ ∧
    parseSemver (some ("release-2.0.10-beta")) = some ⟨2, 0, 10⟩ ∧
    parseSemver (some ("not-a-version")) = none ∧
    parseSemver (some ("1.2.3-4.5.6")) = some ⟨1, 2, 3⟩ ∧
    (∀ t v, parseSemver (some t) = some v →
      ∃ pre d1 d2 d3 post,
        TripleDecomp (stripLeadingV (trimChars t.data)) pre d1 d2 d3 post ∧
        (∀ c, post.head? = some c → c.isDigit = false) ∧
        natOfDigits d1 = v.major ∧ natOfDigits d2 = v.minor ∧
        natOfDigits d3 = v.patch ∧
        (∀ pre' d1' d2' d3' post',
          TripleDecomp (stripLeadingV (trimChars t.data)) pre' d1' d2' d3' post' →
          pre.length ≤ pre'.length)) := by
  refine ⟨rfl, rfl, by decide, by decide, by decide, by decide, by decide, ?_⟩
  intro t v h
  simp only [parseSemver] at h
  split at h
  · cases h
  · exact findTriple_first h

/-- Witness for C3: the final clause applied at a tag holding two
triples, where the first one is returned. -/
theorem parseSemver_contract_witness :
    parseSemver (some ("1.2.3-4.5.6")) = some ⟨1, 2, 3⟩ ∧
    (∃ pre d1 d2 d3 post,
      TripleDecomp (stripLeadingV (trimChars ("1.2.3-4.5.6").data))
        pre d1 d2 d3 post ∧
      (∀ c, post.head? = some c → c.isDigit = false) ∧
      natOfDigits d1 = (Semver.mk 1 2 3).major ∧
      natOfDigits d2 = (Semver.mk 1 2 3).minor ∧
      natOfDigits d3 = (Semver.mk 1 2 3).patch ∧
      (∀ pre' d1' d2' d3' post',
        TripleDecomp (stripLeadingV (trimChars ("1.2.3-4.5.6").data))
          pre' d1' d2' d3' post' →
        pre.length ≤ pre'.length)) :=
  ⟨by decide,
    parseSemver_contract.2.2.2.2.2.2.2 ("1.2.3-4.5.6") ⟨1, 2, 3⟩ (by decide)⟩

/-- C6: with working storage and a positive clock, cacheRelease followed
immediately by getCachedRelease returns the stored release, and
getCachedRelease returns absent once the stored entry's age reaches the
6-hour TTL. -/
theorem cache_roundtrip_and_ttl (st : Storage) (now : Nat) (r : Release)
    (hget : st.getFails = false) (hset : st.setFails = false)
    (hnow : 0 < now) :
    getCachedRelease (cacheRelease st now r) now = some r ∧
    (∀ later : Nat, cacheTTL ≤ later - now →
      getCachedRelease (cacheRelease st now r) later = none) := by
  have hc : cacheRelease st now r =
      { st with contents := some (StoredJson.entry now (some r)) } := by
    unfold cacheRelease
    rw [hset]
    simp
  constructor
  · rw [hc]
    simp [getCachedRelease, hget, hnow.ne', Nat.sub_self, cacheTTL]
  · intro later hl
    rw [hc]
    simp [getCachedRelease, hget, Nat.not_lt.mpr hl]

/-- Witness for C6 at an empty working store and clock value 1. -/
theorem cache_roundtrip_and_ttl_witness :
    getCachedRelease (cacheRelease ⟨none, false, false⟩ 1
        ⟨some ("v1.0.0"), false, false, none⟩) 1 =
      some ⟨some ("v1.0.0"), false, false, none⟩ ∧
    getCachedRelease (cacheRelease ⟨none, false, false⟩ 1
        ⟨some ("v1.0.0"), false, false, none⟩) (1 + cacheTTL) = none :=
  ⟨(cache_roundtrip_and_ttl _ _ _ rfl rfl (by decide)).1,
    (cache_roundtrip_and_ttl _ _ _ rfl rfl (by decide)).2
      (1 + cacheTTL) (by decide)⟩

/-- C7: on a cache miss with a failed transport (network error or
non-success status), fetchLatestRelease invokes no UI update, writes
nothing to the cache, and returns normally. -/
theorem fetchLatestRelease_transport_failure (st : Storage) (now : Nat)
    (transport : FetchResult)
    (hmiss : getCachedRelease st now = none)
    (hfail : transport = FetchResult.networkError ∨
      ∃ s, transport = FetchResult.httpError s) :
    fetchLatestRelease st now transport = ⟨[], st⟩ := by
  unfold fetchLatestRelease
  rw [hmiss]
  rcases hfail with h | ⟨s, h⟩ <;> rw [h]

/-- Witness for C7 at an empty store and a rejected fetch. -/
theorem fetchLatestRelease_transport_failure_witness :
    fetchLatestRelease ⟨none, false, false⟩ 0 FetchResult.networkError =
      ⟨[], ⟨none, false, false⟩⟩ :=
  fetchLatestRelease_transport_failure _ _ _ rfl (Or.inl rfl)

/-- C9: every storage failure is swallowed inside the cache: a throwing
read or an undecodable payload gives a miss, and a throwing write
returns normally leaving the store unchanged. -/
theorem cache_failures_swallowed (st : Storage) (now : Nat) (r : Release) :
    (st.getFails = true → getCachedRelease st now = none) ∧
    (st.contents = some StoredJson.malformed →
      getCachedRelease st now = none) ∧
    (st.setFails = true → cacheRelease st now r = st) := by
  refine ⟨?_, ?_, ?_⟩
  · intro h
    unfold getCachedRelease
    rw [h]
    rfl
  · intro h
    unfold getCachedRelease
    rw [h]
    split
    · rfl
    · rfl
  · intro h
    unfold cacheRelease
    rw [h]
    simp

/-- Witness for C9 at a throwing store and a corrupt payload. -/
theorem cache_failures_swallowed_witness :
    getCachedRelease ⟨none, true, true⟩ 5 = none ∧
    getCachedRelease ⟨some StoredJson.malformed, false, false⟩ 5 = none ∧
    cacheRelease ⟨none, true, true⟩ 5 ⟨none, false, false, none⟩ =
      ⟨none, true, true⟩ :=
  ⟨(cache_failures_swallowed ⟨none, true, true⟩ 5
      ⟨none, false, false, none⟩).1 rfl,
    (cache_failures_swallowed ⟨some StoredJson.malformed, false, false⟩ 5
      ⟨none, false, false, none⟩).2.1 rfl,
    (cache_failures_swallowed ⟨none, true, true⟩ 5
      ⟨none, false, false, none⟩).2.2 rfl⟩

/-- C10: a decoded cache entry is honoured only when both its ts and its
release fields are truthy: a stored timestamp of exactly 0 or an absent
release gives a miss. -/
theorem getCachedRelease_truthiness (st : Storage) (now ts : Nat)
    (rel : Option Release) :
    (st.contents = some (StoredJson.entry 0 rel) →
      getCachedRelease st now = none) ∧
    (st.contents = some (StoredJson.entry ts none) →
      getCachedRelease st now = none) := by
  constructor
  · intro h
    unfold getCachedRelease
    rw [h]
    split
    · rfl
    · simp
  · intro h
    unfold getCachedRelease
    rw [h]
    split
    · rfl
    · simp

/-- Witness for C10 at a fresh epoch-stamped entry and at an entry with
an absent release. -/
theorem getCachedRelease_truthiness_witness :
    getCachedRelease ⟨some (StoredJson.entry 0 (some ⟨none, false, false, none⟩)),
        false, false⟩ 0 = none ∧
    getCachedRelease ⟨some (StoredJson.entry 5 none), false, false⟩ 5 = none :=
  ⟨(getCachedRelease_truthiness _ 0 0 (some ⟨none, false, false, none⟩)).1 rfl,
    (getCachedRelease_truthiness _ 5 5 none).2 rfl⟩

end OpenDrop
